import Mathlib

/-!
Verification of the harmoniq key-classifier build scripts
(`make_key_tflite.py` and `train_key_tflite.py`).

The float32 arithmetic of the source is modelled over the exact reals
(the spec states its numeric properties "within floating tolerance");
decimal literals become exact rationals.  Stochastic draws
(`random.uniform`, `random.randint`, `random.choice`, `random.random`,
`np.random.rand`) are modelled by an explicit record of the values a
random source produces, so every theorem quantifies over all
random-source states.
-/

set_option maxHeartbeats 1000000

namespace Harmoniq

/-- Raw major key-profile literals (make_key_tflite.py line 2,
train_key_tflite.py line 4: the same twelve literals). -/
def majRaw : Fin 12 → ℚ :=
  ![6.35, 2.23, 3.48, 2.33, 4.38, 4.09, 2.52, 5.19, 2.39, 3.66, 2.29, 2.88]

/-- Raw minor key-profile literals (make_key_tflite.py line 3,
train_key_tflite.py line 5). -/
def minRaw : Fin 12 → ℚ :=
  ![6.33, 2.68, 3.52, 5.38, 2.60, 3.53, 2.54, 4.75, 3.98, 2.69, 3.34, 3.17]

/-- Sum of squares of a rational 12-vector (the square of `np.linalg.norm`). -/
def sqNorm (v : Fin 12 → ℚ) : ℚ := ∑ p, v p ^ 2

/-- The map `v / np.linalg.norm(v)`: L2 normalization over the reals. -/
noncomputable def normalize (v : Fin 12 → ℚ) : Fin 12 → ℝ :=
  fun p => (v p : ℝ) / Real.sqrt ((sqNorm v : ℝ))

/-- Source: `maj = maj/np.linalg.norm(maj)` (make_key_tflite.py line 2). -/
noncomputable def maj : Fin 12 → ℝ := normalize majRaw

/-- Source: `minr = minr/np.linalg.norm(minr)` (make_key_tflite.py line 3). -/
noncomputable def minr : Fin 12 → ℝ := normalize minRaw

/-- Reduce an integer index into `Fin 12` (Python `% 12` on ints is the
nonnegative remainder, as is `Int.emod` for a positive modulus). -/
def wrap12 (x : ℤ) : Fin 12 := ⟨(x % 12).toNat, by omega⟩

/-- Source: `def rot(v,r): r%=12; return np.concatenate([v[r:],v[:r]])`
(make_key_tflite.py line 4, train_key_tflite.py line 9): the result at
index `p` is `v[(p + r) % 12]`, a left rotation by `r mod 12`. -/
def rot {α : Type*} (v : Fin 12 → α) (r : ℤ) : Fin 12 → α :=
  fun p => v (wrap12 ((p : ℤ) + r))

/-- Models `np.roll(v, s)`: the result at index `p` is `v[(p - s) % 12]`
(train_key_tflite.py line 20). -/
def roll {α : Type*} (v : Fin 12 → α) (s : ℤ) : Fin 12 → α :=
  fun p => v (wrap12 ((p : ℤ) - s))

/-- Mode of a key class: even classes are major (`is_maj=(cls%2)==0`). -/
def isMajor (k : Fin 24) : Bool := (k : ℕ) % 2 == 0

/-- Tonic pitch class of a key class (`r = cls//2`). -/
def tonic (k : Fin 24) : ℕ := (k : ℕ) / 2

/-- The normalized base profile for a mode (`maj` if major else `minr`). -/
noncomputable def baseProfile (m : Bool) : Fin 12 → ℝ := if m then maj else minr

/-- The raw (unnormalized) base profile for a key class. -/
def rawOf (k : Fin 24) : Fin 12 → ℚ := if isMajor k then majRaw else minRaw

/-- Operation `rotatedProfile(keyClass)`: `rot(tm, r)` with `r = i//2` and `tm`
chosen by parity (make_key_tflite.py line 7, train_key_tflite.py line 17). -/
noncomputable def rotatedProfile (k : Fin 24) : Fin 12 → ℝ :=
  rot (baseProfile (isMajor k)) (tonic k : ℤ)

/-- Rational (unnormalized) counterpart of `rotatedProfile`. -/
def rotQ (k : Fin 24) : Fin 12 → ℚ := rot (rawOf k) (tonic k : ℤ)

/-- Rational dot product of 12-vectors. -/
def rdot (v w : Fin 12 → ℚ) : ℚ := ∑ p, v p * w p

/-- The spec's own description of rotation: "RotateLeft(v, r) moves the
first r elements to the end (r taken mod 12)".  Modelled from the spec's
words, for the refinement claim about `rot`. -/
def leftRotate {α : Type*} (v : Fin 12 → α) (s : ℕ) : Fin 12 → α :=
  fun p => v ⟨((p : ℕ) + s) % 12, Nat.mod_lt _ (by norm_num)⟩

/-- The index map of `rot` is a bijection of `Fin 12`. -/
def rotEquiv (r : ℤ) : Fin 12 ≃ Fin 12 where
  toFun p := wrap12 ((p : ℤ) + r)
  invFun p := wrap12 ((p : ℤ) - r)
  left_inv p := by
    have hp := p.isLt
    apply Fin.ext
    simp only [wrap12, Fin.val_mk]
    omega
  right_inv p := by
    have hp := p.isLt
    apply Fin.ext
    simp only [wrap12, Fin.val_mk]
    omega

/-- The raw major profile scaled by 100 into integers (the literals have
two decimal places); used to decide numeric comparisons. -/
def majRawZ : Fin 12 → ℤ :=
  ![635, 223, 348, 233, 438, 409, 252, 519, 239, 366, 229, 288]

/-- The raw minor profile scaled by 100 into integers. -/
def minRawZ : Fin 12 → ℤ :=
  ![633, 268, 352, 538, 260, 353, 254, 475, 398, 269, 334, 317]

/-- Integer sum of squares. -/
def sqNormZ (v : Fin 12 → ℤ) : ℤ := ∑ p, v p ^ 2

/-- Integer dot product. -/
def rdotZ (v w : Fin 12 → ℤ) : ℤ := ∑ p, v p * w p

/-- Integer-scaled raw profile of a key class. -/
def rawZOf (k : Fin 24) : Fin 12 → ℤ := if isMajor k then majRawZ else minRawZ

/-- Integer-scaled rotated raw profile of a key class. -/
def rotQZ (k : Fin 24) : Fin 12 → ℤ := rot (rawZOf k) (tonic k : ℤ)

end Harmoniq

namespace Harmoniq.MakeKey

/-- One assignment `W[:,i] = c` of the construction loop
(make_key_tflite.py line 7). -/
def setCol (M : Fin 12 → Fin 24 → ℝ) (j : Fin 24) (c : Fin 12 → ℝ) :
    Fin 12 → Fin 24 → ℝ :=
  fun p j' => if j' = j then c p else M p j'

/-- The loop `for i in range(24): r=i//2; tm=maj if (i%2)==0 else minr;
W[:,i]=rot(tm,r)` run from an arbitrary initial matrix
(make_key_tflite.py lines 6-7). -/
noncomputable def buildW (M0 : Fin 12 → Fin 24 → ℝ) : Fin 12 → Fin 24 → ℝ :=
  (List.finRange 24).foldl
    (fun M i => setCol M i (rot (if (i : ℕ) % 2 = 0 then maj else minr) ((i : ℕ) / 2 : ℤ)))
    M0

/-- Source: `W = np.zeros((12,24))` then the column loop (make_key_tflite.py lines 5-7). -/
noncomputable def W : Fin 12 → Fin 24 → ℝ := buildW (fun _ _ => 0)

/-- Source: `b = np.zeros((24,))` (make_key_tflite.py line 5). -/
def b : Fin 24 → ℝ := fun _ => 0

/-- Source: `model_fn(x) = x @ W + b` on a single row `x` (make_key_tflite.py line 10):
entry `i` of the logits is the dot product of `x` with column `i` plus `b[i]`. -/
noncomputable def model_fn (x : Fin 12 → ℝ) : Fin 24 → ℝ :=
  fun i => (∑ p, x p * W p i) + b i

end Harmoniq.MakeKey

namespace Harmoniq.TrainKey

open Harmoniq

/-- Table `maj_degrees` (train_key_tflite.py line 6): the seven diatonic triads
of the major scale, as scale-degree offsets. -/
def maj_degrees : Fin 7 → List ℕ :=
  ![[0, 4, 7], [2, 5, 9], [4, 7, 11], [5, 9, 0], [7, 11, 2], [9, 0, 4], [11, 2, 5]]

/-- Table `min_degrees` (train_key_tflite.py line 7). -/
def min_degrees : Fin 7 → List ℕ :=
  ![[0, 3, 7], [2, 5, 8], [3, 7, 10], [5, 8, 0], [7, 10, 2], [8, 0, 3], [10, 2, 5]]

/-- One in-place update `v[idx % 12] += amt` of a chroma accumulator. -/
def addAt (v : Fin 12 → ℚ) (idx : ℕ) (amt : ℚ) : Fin 12 → ℚ :=
  fun p => if (p : ℕ) = idx % 12 then v p + amt else v p

/-- The stochastic draws one `chord_vec` call consumes:
`random.choice(degs)`, then two `random.random()` values. -/
structure ChordDraws where
  tri : Fin 7
  pLead : ℚ
  pSub : ℚ

/-- Operation `chord_vec(root, is_maj)` (train_key_tflite.py lines 10-15): zero the
accumulator, add 1.0 at each triad pitch class `(root+s) % 12`, then with
`random.random() < 0.35` add 0.7 at `(root + (11 if is_maj else 10)) % 12`,
and with `random.random() < 0.25` add 0.4 at `(root+5) % 12`. -/
def chord_vec (root : ℕ) (is_maj : Bool) (d : ChordDraws) : Fin 12 → ℚ :=
  let tri := (if is_maj then maj_degrees else min_degrees) d.tri
  let v1 := tri.foldl (fun v s => addAt v (root + s) 1) (fun _ => 0)
  let v2 := if d.pLead < 7 / 20 then addAt v1 (root + (if is_maj then 11 else 10)) (7 / 10) else v1
  if d.pSub < 1 / 4 then addAt v2 (root + 5) (2 / 5) else v2

/-- Choice table of `random.choice([-2,-1,1,2])` (train_key_tflite.py line 20). -/
def shiftVal : Fin 4 → ℤ := ![-2, -1, 1, 2]

/-- The stochastic draws one `synth_sample` call consumes:
`random.uniform(0.8,1.2)`, `random.randint(1,3)` (the number of chord
iterations), the draws of each possible `chord_vec` call, the roll offset
choice, and the 12 `np.random.rand` values. -/
structure SynthDraws where
  u : ℚ
  nChords : ℕ
  chords : Fin 3 → ChordDraws
  shiftIdx : Fin 4
  noise : Fin 12 → ℚ

/-- The ranges the random source guarantees: `uniform(0.8,1.2)` lies in
[0.8, 1.2], `randint(1,3)` in {1,2,3}, `random.random()` in [0,1),
`np.random.rand` in [0,1). -/
def ValidDraws (d : SynthDraws) : Prop :=
  (4 / 5 : ℚ) ≤ d.u ∧ d.u ≤ 6 / 5 ∧ 1 ≤ d.nChords ∧ d.nChords ≤ 3 ∧
  (∀ i : Fin 3, 0 ≤ (d.chords i).pLead ∧ (d.chords i).pLead < 1 ∧
    0 ≤ (d.chords i).pSub ∧ (d.chords i).pSub < 1) ∧
  (∀ p : Fin 12, 0 ≤ d.noise p ∧ d.noise p < 1)

/-- The accumulated `mix` of `synth_sample(cls)` just before the clip
(train_key_tflite.py lines 16-20): `base*uniform(0.8,1.2)`, plus
`0.7*chord_vec(r,is_maj)` for each of the 1-3 chord iterations, plus
`0.15*np.roll(base, shift)`, plus `0.05*np.random.rand(12)`. -/
noncomputable def synthMix (cls : Fin 24) (d : SynthDraws) : Fin 12 → ℝ :=
  let r := (cls : ℕ) / 2
  let is_maj := (cls : ℕ) % 2 == 0
  let base : Fin 12 → ℝ := rot (if is_maj then maj else minr) (r : ℤ)
  fun p =>
    base p * (d.u : ℝ)
      + (∑ i : Fin 3,
          if (i : ℕ) < d.nChords then (7 / 10) * ((chord_vec r is_maj (d.chords i) p : ℚ) : ℝ) else 0)
      + (3 / 20) * roll base (shiftVal d.shiftIdx) p
      + (1 / 20) * (d.noise p : ℝ)

/-- Source: `mix = np.clip(mix, 1e-6, None); mix = mix/np.sum(mix)`
(train_key_tflite.py line 21). -/
noncomputable def synth_sample (cls : Fin 24) (d : SynthDraws) : Fin 12 → ℝ :=
  let clipped : Fin 12 → ℝ := fun p => max (synthMix cls d p) (1 / 1000000)
  fun p => clipped p / ∑ q, clipped q

/-- Sample collection of `make_dataset` (train_key_tflite.py lines 23-25):
for each class `c` in range(24), `n_per_class` fresh samples, each labeled
`c`; `ds c j` is the random-source state consumed by the j-th call for
class `c`. -/
noncomputable def make_dataset_list (n : ℕ) (ds : ℕ → ℕ → SynthDraws) :
    List ((Fin 12 → ℝ) × ℕ) :=
  (List.finRange 24).flatMap fun c =>
    (List.range n).map fun j => (synth_sample c (ds (c : ℕ) j), (c : ℕ))

/-- Shuffle step `np.random.shuffle(idx); xs=xs[idx]` (train_key_tflite.py line 27):
reorder a list by a permutation of its index set. -/
def permuteList {β : Type*} (l : List β) (σ : Equiv.Perm (Fin l.length)) : List β :=
  (List.finRange l.length).map fun i => l.get (σ i)

/-- Split step `n = int(0.9*len); return (xs[:n],ys[:n]),(xs[n:],ys[n:])`
(train_key_tflite.py line 28): the shuffled list split at 90%. -/
noncomputable def trainVal (n : ℕ) (ds : ℕ → ℕ → SynthDraws)
    (σ : Equiv.Perm (Fin (make_dataset_list n ds).length)) :
    List ((Fin 12 → ℝ) × ℕ) × List ((Fin 12 → ℝ) × ℕ) :=
  let xs := permuteList (make_dataset_list n ds) σ
  let t := 9 * xs.length / 10
  (xs.take t, xs.drop t)

end Harmoniq.TrainKey

namespace Harmoniq

/-! ## Rotation arithmetic -/

lemma sum_rot {M : Type*} [AddCommMonoid M] (v : Fin 12 → M) (r : ℤ) :
    ∑ p, rot v r p = ∑ p, v p :=
  Equiv.sum_comp (rotEquiv r) v

lemma roll_eq_rot {α : Type*} (v : Fin 12 → α) (s : ℤ) : roll v s = rot v (-s) := by
  funext p
  show v (wrap12 ((p : ℤ) - s)) = v (wrap12 ((p : ℤ) + -s))
  rw [Int.sub_eq_add_neg]

lemma sum_roll {M : Type*} [AddCommMonoid M] (v : Fin 12 → M) (s : ℤ) :
    ∑ p, roll v s p = ∑ p, v p := by
  rw [roll_eq_rot]
  exact sum_rot v (-s)

/-! ## Profile entries and norms -/

lemma majRaw_pos : ∀ p, 0 < majRaw p := by
  intro p
  fin_cases p <;> norm_num [majRaw]

lemma minRaw_pos : ∀ p, 0 < minRaw p := by
  intro p
  fin_cases p <;> norm_num [minRaw]

lemma rawOf_pos (k : Fin 24) (p : Fin 12) : 0 < rawOf k p := by
  unfold rawOf
  cases isMajor k
  · simpa using minRaw_pos p
  · simpa using majRaw_pos p

lemma sqNorm_pos_of_pos {v : Fin 12 → ℚ} (hv : ∀ p, 0 < v p) : 0 < sqNorm v :=
  Finset.sum_pos (fun p _ => pow_pos (hv p) 2) Finset.univ_nonempty

lemma sqNorm_rawOf_pos (k : Fin 24) : 0 < sqNorm (rawOf k) :=
  sqNorm_pos_of_pos (rawOf_pos k)

lemma rotatedProfile_eq (k : Fin 24) (p : Fin 12) :
    rotatedProfile k p = ((rotQ k p : ℚ) : ℝ) / Real.sqrt ((sqNorm (rawOf k) : ℚ) : ℝ) := by
  cases h : isMajor k <;>
    simp [rotatedProfile, baseProfile, rotQ, rawOf, rot, normalize, maj, minr, h]

lemma rdot_self_rotQ (k : Fin 24) : rdot (rotQ k) (rotQ k) = sqNorm (rawOf k) := by
  unfold rdot rotQ
  calc ∑ p, rot (rawOf k) (tonic k : ℤ) p * rot (rawOf k) (tonic k : ℤ) p
      = ∑ p, rawOf k p * rawOf k p :=
        Equiv.sum_comp (rotEquiv (tonic k : ℤ)) (fun q => rawOf k q * rawOf k q)
    _ = sqNorm (rawOf k) := by
        unfold sqNorm
        exact Finset.sum_congr rfl (fun p _ => (sq (rawOf k p)).symm)

/-! ## C7: rotation wraps modulo 12 -/

/-- Claim C7: `rot(v, r)` wraps modulo 12 for every integer rotation amount,
including negative amounts and amounts above 12: it equals the
spec-described left rotation by `((r % 12) + 12) % 12` positions, and
`rotatedProfile(keyClass)` is the left rotation of the mode's base
profile by `keyClass div 2`. -/
theorem rot_wraps_mod_twelve :
    (∀ (v : Fin 12 → ℝ) (r : ℤ), rot v r = leftRotate v ((r % 12 + 12) % 12).toNat) ∧
    (∀ k : Fin 24, rotatedProfile k = leftRotate (baseProfile (isMajor k)) (tonic k)) := by
  constructor
  · intro v r
    funext p
    have hp := p.isLt
    simp only [rot, leftRotate]
    apply congrArg
    apply Fin.ext
    simp only [wrap12, Fin.val_mk]
    omega
  · intro k
    funext p
    have hp := p.isLt
    simp only [rotatedProfile, rot, leftRotate]
    apply congrArg
    apply Fin.ext
    simp only [wrap12, Fin.val_mk]
    omega

/-! ## C4: where the rotation places the tonic salience -/

/-- Claim C4 counterexample: for keyClass 2 (tonic 1, major), the rotated
profile at index `tonic = 1` is NOT the base profile's entry 0: the left
rotation puts entry `(1+1) % 12 = 2` there. -/
theorem tonic_alignment_counterexample :
    rotatedProfile ⟨2, by norm_num⟩ ⟨1, by norm_num⟩ ≠
      baseProfile (isMajor ⟨2, by norm_num⟩) ⟨0, by norm_num⟩ := by
  intro h
  have hmaj : isMajor ⟨2, by norm_num⟩ = true := rfl
  have h2 : rotatedProfile ⟨2, by norm_num⟩ ⟨1, by norm_num⟩ = maj ⟨2, by norm_num⟩ := by
    show rot (baseProfile (isMajor ⟨2, by norm_num⟩)) (tonic ⟨2, by norm_num⟩ : ℤ) _ = _
    rw [hmaj]
    show maj (wrap12 ((1 : ℤ) + (1 : ℤ))) = maj ⟨2, by norm_num⟩
    rfl
  rw [h2, hmaj] at h
  have hNpos : (0 : ℝ) < ((sqNorm majRaw : ℚ) : ℝ) := by
    exact_mod_cast sqNorm_pos_of_pos majRaw_pos
  have hs : (0 : ℝ) < Real.sqrt ((sqNorm majRaw : ℚ) : ℝ) := Real.sqrt_pos.mpr hNpos
  have h3 : ((majRaw ⟨2, by norm_num⟩ : ℚ) : ℝ) = ((majRaw ⟨0, by norm_num⟩ : ℚ) : ℝ) := by
    have h4 := h
    unfold baseProfile maj normalize at h4
    simp only [if_pos] at h4
    rw [div_eq_div_iff hs.ne' hs.ne'] at h4
    exact mul_right_cancel₀ (ne_of_gt hs) h4
  have h5 : (majRaw ⟨2, by norm_num⟩ : ℚ) = majRaw ⟨0, by norm_num⟩ := by exact_mod_cast h3
  norm_num [majRaw] at h5

/-- Claim C4 amended: the left rotation places the base profile's
pitch-class-0 salience at index `(12 - tonic) % 12`, not at index
`tonic`: `rotatedProfile(keyClass)[(12 - tonic) % 12] = baseProfile(mode)[0]`. -/
theorem tonic_alignment_amended : ∀ k : Fin 24,
    rotatedProfile k ⟨(12 - tonic k) % 12, by omega⟩ = baseProfile (isMajor k) ⟨0, by norm_num⟩ := by
  intro k
  have ht : tonic k < 12 := by
    have := k.isLt
    unfold tonic
    omega
  unfold rotatedProfile rot
  apply congrArg
  apply Fin.ext
  simp only [wrap12, Fin.val_mk]
  omega

/-! ## C8: rotated profiles have unit L2 norm -/

/-- Claim C8: for every keyClass, the sum of squares of the 12 entries of
`rotatedProfile(keyClass)` is exactly 1 (the base profiles are
L2-normalized and rotation permutes the entries). -/
theorem rotated_profile_unit_norm : ∀ k : Fin 24, ∑ p, rotatedProfile k p ^ 2 = 1 := by
  intro k
  have hNpos : (0 : ℝ) < ((sqNorm (rawOf k) : ℚ) : ℝ) := by
    exact_mod_cast sqNorm_rawOf_pos k
  calc ∑ p, rotatedProfile k p ^ 2
      = ∑ p, ((rotQ k p : ℚ) : ℝ) ^ 2 / Real.sqrt ((sqNorm (rawOf k) : ℚ) : ℝ) ^ 2 := by
        refine Finset.sum_congr rfl (fun p _ => ?_)
        rw [rotatedProfile_eq, div_pow]
    _ = (∑ p, ((rotQ k p : ℚ) : ℝ) ^ 2) / ((sqNorm (rawOf k) : ℚ) : ℝ) := by
        rw [Real.sq_sqrt hNpos.le, ← Finset.sum_div]
    _ = ((rdot (rotQ k) (rotQ k) : ℚ) : ℝ) / ((sqNorm (rawOf k) : ℚ) : ℝ) := by
        unfold rdot
        push_cast
        refine congrArg (· / _) ?_
        exact Finset.sum_congr rfl (fun p _ => (sq ((rotQ k p : ℚ) : ℝ)))
    _ = ((sqNorm (rawOf k) : ℚ) : ℝ) / ((sqNorm (rawOf k) : ℚ) : ℝ) := by
        rw [rdot_self_rotQ]
    _ = 1 := div_self hNpos.ne'

end Harmoniq

namespace Harmoniq.MakeKey

open Harmoniq

/-! ## The construction loop writes each column exactly once -/

lemma loop_body_eq (i : Fin 24) :
    rot (if (i : ℕ) % 2 = 0 then maj else minr) ((i : ℕ) / 2 : ℤ) = rotatedProfile i := by
  by_cases h : (i : ℕ) % 2 = 0 <;>
    simp [rotatedProfile, baseProfile, isMajor, tonic, h]

lemma foldl_setCol_not_mem (colF : Fin 24 → Fin 12 → ℝ) :
    ∀ (l : List (Fin 24)) (M0 : Fin 12 → Fin 24 → ℝ) (j : Fin 24), j ∉ l →
      ∀ p, (l.foldl (fun M i => setCol M i (colF i)) M0) p j = M0 p j := by
  intro l
  induction l with
  | nil => intro M0 j _ p; rfl
  | cons a t ih =>
    intro M0 j hj p
    have hj' : j ≠ a ∧ j ∉ t := by
      constructor
      · intro h; exact hj (h ▸ List.mem_cons_self a t)
      · intro h; exact hj (List.mem_cons_of_mem a h)
    simp only [List.foldl_cons]
    rw [ih _ j hj'.2 p]
    simp [setCol, hj'.1]

lemma foldl_setCol_mem (colF : Fin 24 → Fin 12 → ℝ) :
    ∀ (l : List (Fin 24)) (M0 : Fin 12 → Fin 24 → ℝ) (j : Fin 24), j ∈ l →
      ∀ p, (l.foldl (fun M i => setCol M i (colF i)) M0) p j = colF j p := by
  intro l
  induction l with
  | nil => intro M0 j hj; exact absurd hj (List.not_mem_nil j)
  | cons a t ih =>
    intro M0 j hj p
    simp only [List.foldl_cons]
    by_cases hjt : j ∈ t
    · exact ih _ j hjt p
    · have hja : j = a := by
        rcases List.mem_cons.mp hj with h | h
        · exact h
        · exact absurd h hjt
      rw [foldl_setCol_not_mem colF t _ j hjt]
      simp [setCol, hja]

lemma W_col (i : Fin 24) (p : Fin 12) : W p i = rotatedProfile i p := by
  unfold W buildW
  rw [foldl_setCol_mem
    (fun i => rot (if (i : ℕ) % 2 = 0 then maj else minr) ((i : ℕ) / 2 : ℤ))
    (List.finRange 24) (fun _ _ => 0) i (List.mem_finRange i) p]
  rw [loop_body_eq]

/-! ## C1: the analytic classifier construction -/

/-- Claim C1: the analytic build produces the 12×24 matrix whose column `i` is
`rotatedProfile(i)`, a 24-length all-zero bias, and the inference
computation returns `logits = x · W + b`. -/
theorem analytic_classifier_build :
    (∀ (i : Fin 24) (p : Fin 12), W p i = rotatedProfile i p) ∧
    (∀ i : Fin 24, b i = 0) ∧
    (∀ (x : Fin 12 → ℝ) (i : Fin 24),
      model_fn x i = (∑ p, x p * rotatedProfile i p) + b i) := by
  refine ⟨fun i p => W_col i p, fun _ => rfl, fun x i => ?_⟩
  unfold model_fn
  refine congrArg (· + b i) ?_
  exact Finset.sum_congr rfl (fun p _ => by rw [W_col])

/-! ## C9: the analytic path is deterministic -/

/-- Claim C9: the analytic construction consumes no random source: the loop
overwrites every column, so its result does not depend on the initial
matrix at all and equals the pure function of the fixed profile
literals; two runs produce identical weights. -/
theorem analytic_build_deterministic :
    ∀ M0 M1 : Fin 12 → Fin 24 → ℝ,
      buildW M0 = buildW M1 ∧ buildW M0 = fun p i => rotatedProfile i p := by
  have hclosed : ∀ M0 : Fin 12 → Fin 24 → ℝ, buildW M0 = fun p i => rotatedProfile i p := by
    intro M0
    funext p j
    unfold buildW
    rw [foldl_setCol_mem
      (fun i => rot (if (i : ℕ) % 2 = 0 then maj else minr) ((i : ℕ) / 2 : ℤ))
      (List.finRange 24) M0 j (List.mem_finRange j) p]
    rw [loop_body_eq]
  intro M0 M1
  exact ⟨(hclosed M0).trans (hclosed M1).symm, hclosed M0⟩

end Harmoniq.MakeKey

namespace Harmoniq

/-! ## Cross-correlations of the 24 rotated raw profiles -/

/-- Strict Cauchy-Schwarz for every distinct pair of rotated raw
profiles, checked on the integer-scaled literals. -/
lemma cross_ltZ : ∀ i j : Fin 24, i ≠ j →
    (rdotZ (rotQZ i) (rotQZ j)) ^ 2 < sqNormZ (rawZOf i) * sqNormZ (rawZOf j) := by
  decide

lemma majRaw_eqZ : ∀ p, majRaw p = (majRawZ p : ℚ) / 100 := by
  intro p
  fin_cases p <;> norm_num [majRaw, majRawZ]

lemma minRaw_eqZ : ∀ p, minRaw p = (minRawZ p : ℚ) / 100 := by
  intro p
  fin_cases p <;> norm_num [minRaw, minRawZ]

lemma rawOf_eqZ (k : Fin 24) (p : Fin 12) : rawOf k p = (rawZOf k p : ℚ) / 100 := by
  unfold rawOf rawZOf
  cases isMajor k
  · simpa using minRaw_eqZ p
  · simpa using majRaw_eqZ p

lemma rotQ_eqZ (k : Fin 24) (p : Fin 12) : rotQ k p = (rotQZ k p : ℚ) / 100 :=
  rawOf_eqZ k _

lemma rdot_eqZ (i j : Fin 24) :
    rdot (rotQ i) (rotQ j) = ((rdotZ (rotQZ i) (rotQZ j) : ℤ) : ℚ) / 10000 := by
  unfold rdot
  calc ∑ p, rotQ i p * rotQ j p
      = ∑ p, ((rotQZ i p : ℚ) * (rotQZ j p : ℚ)) / 10000 := by
        refine Finset.sum_congr rfl (fun p _ => ?_)
        rw [rotQ_eqZ, rotQ_eqZ]
        ring
    _ = (∑ p, (rotQZ i p : ℚ) * (rotQZ j p : ℚ)) / 10000 := by
        rw [Finset.sum_div]
    _ = ((rdotZ (rotQZ i) (rotQZ j) : ℤ) : ℚ) / 10000 := by
        unfold rdotZ
        push_cast
        rfl

lemma sqNorm_eqZ (k : Fin 24) :
    sqNorm (rawOf k) = ((sqNormZ (rawZOf k) : ℤ) : ℚ) / 10000 := by
  unfold sqNorm
  calc ∑ p, rawOf k p ^ 2
      = ∑ p, ((rawZOf k p : ℚ) ^ 2) / 10000 := by
        refine Finset.sum_congr rfl (fun p _ => ?_)
        rw [rawOf_eqZ]
        ring
    _ = (∑ p, (rawZOf k p : ℚ) ^ 2) / 10000 := by
        rw [Finset.sum_div]
    _ = ((sqNormZ (rawZOf k) : ℤ) : ℚ) / 10000 := by
        unfold sqNormZ
        push_cast
        rfl

lemma cross_ltQ (i j : Fin 24) (h : i ≠ j) :
    (rdot (rotQ i) (rotQ j)) ^ 2 < sqNorm (rawOf i) * sqNorm (rawOf j) := by
  have hz : ((rdotZ (rotQZ i) (rotQZ j) : ℚ)) ^ 2 <
      (sqNormZ (rawZOf i) : ℚ) * (sqNormZ (rawZOf j) : ℚ) := by
    exact_mod_cast cross_ltZ i j h
  rw [rdot_eqZ, sqNorm_eqZ, sqNorm_eqZ, div_pow, div_mul_div_comm]
  rw [div_lt_div_iff (by norm_num) (by norm_num)]
  ring_nf
  nlinarith [hz]

/-! ## Profile dot products over the reals -/

lemma dot_profiles (i j : Fin 24) :
    ∑ p, rotatedProfile i p * rotatedProfile j p =
      ((rdot (rotQ i) (rotQ j) : ℚ) : ℝ) /
        (Real.sqrt ((sqNorm (rawOf i) : ℚ) : ℝ) * Real.sqrt ((sqNorm (rawOf j) : ℚ) : ℝ)) := by
  calc ∑ p, rotatedProfile i p * rotatedProfile j p
      = ∑ p, (((rotQ i p : ℚ) : ℝ) * ((rotQ j p : ℚ) : ℝ)) /
          (Real.sqrt ((sqNorm (rawOf i) : ℚ) : ℝ) * Real.sqrt ((sqNorm (rawOf j) : ℚ) : ℝ)) := by
        refine Finset.sum_congr rfl (fun p _ => ?_)
        rw [rotatedProfile_eq, rotatedProfile_eq, div_mul_div_comm]
    _ = (∑ p, ((rotQ i p : ℚ) : ℝ) * ((rotQ j p : ℚ) : ℝ)) /
          (Real.sqrt ((sqNorm (rawOf i) : ℚ) : ℝ) * Real.sqrt ((sqNorm (rawOf j) : ℚ) : ℝ)) := by
        rw [Finset.sum_div]
    _ = _ := by
        refine congrArg (· / _) ?_
        unfold rdot
        push_cast
        rfl

lemma dot_profiles_self (i : Fin 24) :
    ∑ p, rotatedProfile i p * rotatedProfile i p = 1 := by
  have hNpos : (0 : ℝ) < ((sqNorm (rawOf i) : ℚ) : ℝ) := by
    exact_mod_cast sqNorm_rawOf_pos i
  rw [dot_profiles, rdot_self_rotQ, Real.mul_self_sqrt hNpos.le]
  exact div_self hNpos.ne'

end Harmoniq

namespace Harmoniq.MakeKey

open Harmoniq

lemma model_fn_dot (x : Fin 12 → ℝ) (i : Fin 24) :
    model_fn x i = ∑ p, x p * rotatedProfile i p := by
  unfold model_fn b
  rw [add_zero]
  exact Finset.sum_congr rfl (fun p _ => by rw [W_col])

/-! ## C2: the classifier recovers each key on its noise-free profile -/

/-- Claim C2: feeding the noise-free chroma vector `rotatedProfile(i)` through
the analytic classifier yields its unique maximum logit at index `i`:
the self-correlation strictly exceeds every cross-correlation. -/
theorem noiseless_profile_recovers_key :
    ∀ i j : Fin 24, j ≠ i →
      model_fn (rotatedProfile i) j < model_fn (rotatedProfile i) i := by
  intro i j hji
  have hNi : (0 : ℝ) < ((sqNorm (rawOf i) : ℚ) : ℝ) := by
    exact_mod_cast sqNorm_rawOf_pos i
  have hNj : (0 : ℝ) < ((sqNorm (rawOf j) : ℚ) : ℝ) := by
    exact_mod_cast sqNorm_rawOf_pos j
  have hsi : (0 : ℝ) < Real.sqrt ((sqNorm (rawOf i) : ℚ) : ℝ) := Real.sqrt_pos.mpr hNi
  have hsj : (0 : ℝ) < Real.sqrt ((sqNorm (rawOf j) : ℚ) : ℝ) := Real.sqrt_pos.mpr hNj
  have hL : model_fn (rotatedProfile i) j =
      ((rdot (rotQ i) (rotQ j) : ℚ) : ℝ) /
        (Real.sqrt ((sqNorm (rawOf i) : ℚ) : ℝ) * Real.sqrt ((sqNorm (rawOf j) : ℚ) : ℝ)) := by
    rw [model_fn_dot]
    rw [show ∑ p, rotatedProfile i p * rotatedProfile j p =
        ∑ p, rotatedProfile i p * rotatedProfile j p from rfl]
    exact dot_profiles i j
  have hR : model_fn (rotatedProfile i) i = 1 := by
    rw [model_fn_dot]
    exact dot_profiles_self i
  rw [hL, hR]
  rw [div_lt_one (mul_pos hsi hsj)]
  have hsq : (((rdot (rotQ i) (rotQ j) : ℚ) : ℝ)) ^ 2 <
      ((sqNorm (rawOf i) : ℚ) : ℝ) * ((sqNorm (rawOf j) : ℚ) : ℝ) := by
    exact_mod_cast cross_ltQ i j (fun h => hji h.symm)
  have h1 : ((rdot (rotQ i) (rotQ j) : ℚ) : ℝ) ≤ |((rdot (rotQ i) (rotQ j) : ℚ) : ℝ)| :=
    le_abs_self _
  have h2 : |((rdot (rotQ i) (rotQ j) : ℚ) : ℝ)| =
      Real.sqrt ((((rdot (rotQ i) (rotQ j) : ℚ) : ℝ)) ^ 2) :=
    (Real.sqrt_sq_eq_abs _).symm
  have h3 : Real.sqrt ((((rdot (rotQ i) (rotQ j) : ℚ) : ℝ)) ^ 2) <
      Real.sqrt (((sqNorm (rawOf i) : ℚ) : ℝ) * ((sqNorm (rawOf j) : ℚ) : ℝ)) :=
    Real.sqrt_lt_sqrt (sq_nonneg _) hsq
  have h4 : Real.sqrt (((sqNorm (rawOf i) : ℚ) : ℝ) * ((sqNorm (rawOf j) : ℚ) : ℝ)) =
      Real.sqrt ((sqNorm (rawOf i) : ℚ) : ℝ) * Real.sqrt ((sqNorm (rawOf j) : ℚ) : ℝ) :=
    Real.sqrt_mul hNi.le _
  linarith

/-- Witness for C2 at the concrete pair `i = 0`, `j = 1`. -/
theorem noiseless_profile_recovers_key_witness :
    ((1 : Fin 24) ≠ (0 : Fin 24)) ∧
      model_fn (rotatedProfile 0) 1 < model_fn (rotatedProfile 0) 0 :=
  ⟨by decide, noiseless_profile_recovers_key 0 1 (by decide)⟩

end Harmoniq.MakeKey

namespace Harmoniq.TrainKey

open Harmoniq

/-! ## Closed form of `chord_vec` -/

lemma foldl_addAt (root : ℕ) :
    ∀ (l : List ℕ) (w : Fin 12 → ℚ) (p : Fin 12),
      (l.foldl (fun v s => addAt v (root + s) 1) w) p
        = w p + (l.countP (fun s => (root + s) % 12 == (p : ℕ)) : ℚ) := by
  intro l
  induction l with
  | nil => intro w p; simp
  | cons a t ih =>
    intro w p
    simp only [List.foldl_cons, List.countP_cons]
    rw [ih]
    by_cases h : (p : ℕ) = (root + a) % 12
    · simp only [addAt, if_pos h, h, beq_self_eq_true, if_true]
      push_cast
      ring
    · have h' : ¬ ((root + a) % 12 == (p : ℕ)) = true := by
        simp [beq_iff_eq]
        exact fun hh => h hh.symm
      simp only [addAt, if_neg h, if_neg h']
      push_cast
      ring

lemma chord_vec_eq (root : ℕ) (m : Bool) (d : ChordDraws) (p : Fin 12) :
    chord_vec root m d p =
      ((((if m then maj_degrees else min_degrees) d.tri).countP
          (fun s => (root + s) % 12 == (p : ℕ)) : ℕ) : ℚ)
      + (if d.pLead < 7 / 20 ∧ (p : ℕ) = (root + (if m then 11 else 10)) % 12
          then 7 / 10 else 0)
      + (if d.pSub < 1 / 4 ∧ (p : ℕ) = (root + 5) % 12 then 2 / 5 else 0) := by
  unfold chord_vec
  by_cases h1 : d.pLead < 7 / 20 <;> by_cases h2 : d.pSub < 1 / 4 <;>
    simp only [h1, h2, if_true, if_false, true_and, false_and, ite_false] <;>
    simp only [addAt, foldl_addAt root] <;>
    split_ifs <;>
    push_cast <;>
    ring

lemma chord_vec_nonneg (root : ℕ) (m : Bool) (d : ChordDraws) (p : Fin 12) :
    0 ≤ chord_vec root m d p := by
  rw [chord_vec_eq]
  have h0 : (0 : ℚ) ≤ ((((if m then maj_degrees else min_degrees) d.tri).countP
      (fun s => (root + s) % 12 == (p : ℕ)) : ℕ) : ℚ) := Nat.cast_nonneg _
  split_ifs <;> linarith

lemma sum_indicator_at (idx : ℕ) (hidx : idx < 12) (c : ℚ) :
    ∑ p : Fin 12, (if (p : ℕ) = idx then c else 0) = c := by
  calc ∑ p : Fin 12, (if (p : ℕ) = idx then c else 0)
      = ∑ p : Fin 12, (if p = (⟨idx, hidx⟩ : Fin 12) then c else 0) := by
        refine Finset.sum_congr rfl (fun p _ => ?_)
        by_cases h : (p : ℕ) = idx
        · rw [if_pos h, if_pos (Fin.ext h)]
        · rw [if_neg h, if_neg (fun hh => h (by rw [hh]))]
    _ = c := by
        rw [Finset.sum_ite_eq' Finset.univ (⟨idx, hidx⟩ : Fin 12) (fun _ => c)]
        simp

lemma sum_countP (root : ℕ) (l : List ℕ) :
    ∑ p : Fin 12, (l.countP (fun s => (root + s) % 12 == (p : ℕ)) : ℚ) = l.length := by
  induction l with
  | nil => simp
  | cons a t ih =>
    simp only [List.countP_cons, List.length_cons]
    push_cast
    rw [Finset.sum_add_distrib, ih]
    have h1 : ∀ p : Fin 12,
        (if ((root + a) % 12 == (p : ℕ)) = true then (1 : ℚ) else 0)
          = (if (p : ℕ) = (root + a) % 12 then (1 : ℚ) else 0) := by
      intro p
      by_cases h : (p : ℕ) = (root + a) % 12
      · rw [if_pos h, if_pos (by simp [beq_iff_eq, h])]
      · rw [if_neg h, if_neg (by simp [beq_iff_eq]; exact fun hh => h hh.symm)]
    calc (↑(t.length) : ℚ) + ∑ p : Fin 12, (if ((root + a) % 12 == (p : ℕ)) = true then (1:ℚ) else 0)
        = (↑(t.length) : ℚ) + ∑ p : Fin 12, (if (p : ℕ) = (root + a) % 12 then (1:ℚ) else 0) := by
          rw [Finset.sum_congr rfl (fun p _ => h1 p)]
      _ = (↑(t.length) : ℚ) + 1 := by
          rw [sum_indicator_at ((root + a) % 12) (Nat.mod_lt _ (by norm_num)) 1]
      _ = (↑(t.length) : ℚ) + 1 := rfl

lemma sum_ite_and_indicator (A : Prop) [Decidable A] (idx : ℕ) (hidx : idx < 12) (c : ℚ) :
    ∑ p : Fin 12, (if A ∧ (p : ℕ) = idx then c else 0) = if A then c else 0 := by
  by_cases hA : A
  · simp only [hA, true_and, if_true]
    exact sum_indicator_at idx hidx c
  · simp [hA]

lemma degrees_length : ∀ (m : Bool) (t : Fin 7),
    ((if m then maj_degrees else min_degrees) t).length = 3 := by
  decide

lemma chord_vec_sum (root : ℕ) (m : Bool) (d : ChordDraws) :
    ∑ p, chord_vec root m d p =
      3 + (if d.pLead < 7 / 20 then (7 : ℚ) / 10 else 0)
        + (if d.pSub < 1 / 4 then (2 : ℚ) / 5 else 0) := by
  simp only [chord_vec_eq]
  rw [Finset.sum_add_distrib, Finset.sum_add_distrib, sum_countP, degrees_length,
    sum_ite_and_indicator _ _ (Nat.mod_lt _ (by norm_num)),
    sum_ite_and_indicator _ _ (Nat.mod_lt _ (by norm_num))]
  norm_num

lemma chord_vec_sum_le (root : ℕ) (m : Bool) (d : ChordDraws) :
    ∑ p, chord_vec root m d p ≤ 41 / 10 := by
  rw [chord_vec_sum]
  split_ifs <;> norm_num

/-! ## C3: where the leading-tone and subdominant decisions live -/

/-- Claim C3 counterexample: two random traces that differ only in one
leading-tone coin (taken vs not taken; one chord iteration each) change
the synthesized pre-normalization chroma at the leading-tone pitch class
by 0.49 = 0.7 × 0.7, not by the claimed sample-level amount 0.7: the
decision happens inside `chord_vec` and is scaled by 0.7 when mixed. -/
theorem lead_decision_counterexample :
    synthMix ⟨0, by norm_num⟩
        ⟨1, 1, fun _ => ⟨0, 0, 1⟩, 0, fun _ => 0⟩ ⟨11, by norm_num⟩
      - synthMix ⟨0, by norm_num⟩
        ⟨1, 1, fun _ => ⟨0, 1, 1⟩, 0, fun _ => 0⟩ ⟨11, by norm_num⟩
      = 49 / 100 ∧ ((49 : ℝ) / 100) ≠ 7 / 10 := by
  constructor
  · have hcv1 : chord_vec 0 true ⟨0, 0, 1⟩ ⟨11, by norm_num⟩ = 7 / 10 := by
      rw [chord_vec_eq]
      norm_num [maj_degrees]
    have hcv2 : chord_vec 0 true ⟨0, 1, 1⟩ ⟨11, by norm_num⟩ = 0 := by
      rw [chord_vec_eq]
      norm_num [maj_degrees]
    have hsplit : ∀ (c : ChordDraws),
        synthMix ⟨0, by norm_num⟩ ⟨1, 1, fun _ => c, 0, fun _ => 0⟩ ⟨11, by norm_num⟩
          = rot maj (0 : ℤ) ⟨11, by norm_num⟩ * 1
            + (7 / 10) * ((chord_vec 0 true c ⟨11, by norm_num⟩ : ℚ) : ℝ)
            + (3 / 20) * roll (rot maj (0 : ℤ)) (shiftVal 0) ⟨11, by norm_num⟩
            + (1 / 20) * ((0 : ℚ) : ℝ) := by
      intro c
      show rot (if ((0 : ℕ) % 2 == 0) then maj else minr) _ _ * _ + _ + _ + _ = _
      norm_num [Fin.sum_univ_three]
    rw [hsplit, hsplit, hcv1, hcv2]
    push_cast
    ring
  · norm_num

/-- Claim C3 amended: the leading-tone and subdominant decisions are made once
per `chord_vec` call (not once per sample), with magnitudes 0.7 and 0.4
inside the chord vector; the sampler runs 1-3 such calls and adds each
result scaled by 0.7, so each taken decision contributes 0.49 resp. 0.28
to the sample, up to three times per sample. -/
theorem chord_decisions_amended :
    (∀ (root : ℕ) (m : Bool) (d : ChordDraws) (p : Fin 12),
      chord_vec root m d p =
        ((((if m then maj_degrees else min_degrees) d.tri).countP
            (fun s => (root + s) % 12 == (p : ℕ)) : ℕ) : ℚ)
        + (if d.pLead < 7 / 20 ∧ (p : ℕ) = (root + (if m then 11 else 10)) % 12
            then 7 / 10 else 0)
        + (if d.pSub < 1 / 4 ∧ (p : ℕ) = (root + 5) % 12 then 2 / 5 else 0)) ∧
    (∀ (cls : Fin 24) (d : SynthDraws) (p : Fin 12),
      synthMix cls d p =
        rot (if ((cls : ℕ) % 2 == 0) then maj else minr) (((cls : ℕ) / 2 : ℕ) : ℤ) p * (d.u : ℝ)
        + (7 / 10) * (∑ i : Fin 3, if (i : ℕ) < d.nChords then
            ((chord_vec ((cls : ℕ) / 2) ((cls : ℕ) % 2 == 0) (d.chords i) p : ℚ) : ℝ) else 0)
        + (3 / 20) * roll (rot (if ((cls : ℕ) % 2 == 0) then maj else minr)
            (((cls : ℕ) / 2 : ℕ) : ℤ)) (shiftVal d.shiftIdx) p
        + (1 / 20) * (d.noise p : ℝ)) := by
  constructor
  · exact chord_vec_eq
  · intro cls d p
    show _ * _ + _ + _ + _ = _
    have hs : (∑ i : Fin 3, if (i : ℕ) < d.nChords then
          (7 / 10 : ℝ) * ((chord_vec ((cls : ℕ) / 2) ((cls : ℕ) % 2 == 0) (d.chords i) p : ℚ) : ℝ)
          else 0)
        = (7 / 10 : ℝ) * ∑ i : Fin 3, (if (i : ℕ) < d.nChords then
            ((chord_vec ((cls : ℕ) / 2) ((cls : ℕ) % 2 == 0) (d.chords i) p : ℚ) : ℝ) else 0) := by
      rw [Finset.mul_sum]
      refine Finset.sum_congr rfl (fun i _ => ?_)
      by_cases h : (i : ℕ) < d.nChords
      · rw [if_pos h, if_pos h]
      · rw [if_neg h, if_neg h, mul_zero]
    rw [hs]

end Harmoniq.TrainKey

namespace Harmoniq

/-! ## Per-entry lower bound and sum upper bound for the base profiles -/

lemma ratCast_le_real {a b : ℚ} (h : a ≤ b) : (a : ℝ) ≤ (b : ℝ) :=
  Rat.cast_le.mpr h

lemma normalize_entry_lb (v : Fin 12 → ℚ) (hpos : ∀ p, 0 < v p)
    (hb : ∀ p, sqNorm v ≤ (6 * v p) ^ 2) (p : Fin 12) : (1 / 6 : ℝ) ≤ normalize v p := by
  have hvp : (0 : ℝ) < (v p : ℝ) := by exact_mod_cast hpos p
  have hN : (0 : ℝ) < ((sqNorm v : ℚ) : ℝ) := by exact_mod_cast sqNorm_pos_of_pos hpos
  have hs0 : (0 : ℝ) < Real.sqrt ((sqNorm v : ℚ) : ℝ) := Real.sqrt_pos.mpr hN
  have hsq : Real.sqrt ((sqNorm v : ℚ) : ℝ) ≤ 6 * (v p : ℝ) := by
    have h1 : ((sqNorm v : ℚ) : ℝ) ≤ (6 * (v p : ℝ)) ^ 2 := by exact_mod_cast hb p
    calc Real.sqrt ((sqNorm v : ℚ) : ℝ) ≤ Real.sqrt ((6 * (v p : ℝ)) ^ 2) :=
          Real.sqrt_le_sqrt h1
      _ = 6 * (v p : ℝ) := Real.sqrt_sq (by positivity)
  have hmono : (v p : ℝ) / (6 * (v p : ℝ)) ≤ (v p : ℝ) / Real.sqrt ((sqNorm v : ℚ) : ℝ) := by
    gcongr
  have heq : (v p : ℝ) / (6 * (v p : ℝ)) = 1 / 6 := by
    rw [div_eq_iff (by positivity : (6 : ℝ) * (v p : ℝ) ≠ 0)]
    ring
  unfold normalize
  linarith

lemma normalize_sum_ub (v : Fin 12 → ℚ) (hpos : ∀ p, 0 < v p)
    (h16 : (∑ p, v p) ^ 2 ≤ 16 * sqNorm v) : ∑ p, normalize v p ≤ 4 := by
  have hN : (0 : ℝ) < ((sqNorm v : ℚ) : ℝ) := by exact_mod_cast sqNorm_pos_of_pos hpos
  have hs0 : (0 : ℝ) < Real.sqrt ((sqNorm v : ℚ) : ℝ) := Real.sqrt_pos.mpr hN
  have hsum_nn : (0 : ℝ) ≤ ∑ p, (v p : ℝ) :=
    Finset.sum_nonneg (fun p _ => by exact_mod_cast (hpos p).le)
  unfold normalize
  rw [← Finset.sum_div, div_le_iff hs0]
  have hcast : (∑ p, (v p : ℝ)) = ((∑ p, v p : ℚ) : ℝ) := by push_cast; rfl
  have h1 : (∑ p, (v p : ℝ)) ^ 2 ≤ 16 * ((sqNorm v : ℚ) : ℝ) := by
    rw [hcast]
    exact_mod_cast h16
  calc ∑ p, (v p : ℝ)
      = Real.sqrt ((∑ p, (v p : ℝ)) ^ 2) := (Real.sqrt_sq hsum_nn).symm
    _ ≤ Real.sqrt (16 * ((sqNorm v : ℚ) : ℝ)) := Real.sqrt_le_sqrt h1
    _ = 4 * Real.sqrt ((sqNorm v : ℚ) : ℝ) := by
        rw [show (16 : ℝ) * ((sqNorm v : ℚ) : ℝ) = (4 : ℝ) ^ 2 * ((sqNorm v : ℚ) : ℝ) by
          norm_num]
        rw [Real.sqrt_mul (by positivity) _, Real.sqrt_sq (by norm_num)]

lemma sqNorm_majRaw_val : sqNorm majRaw = 1646799 / 10000 := by
  norm_num [sqNorm, Fin.sum_univ_succ, majRaw]

lemma sqNorm_minRaw_val : sqNorm minRaw = 1811021 / 10000 := by
  norm_num [sqNorm, Fin.sum_univ_succ, minRaw]

lemma sum_majRaw_val : ∑ p, majRaw p = 4179 / 100 := by
  norm_num [Fin.sum_univ_succ, majRaw]

lemma sum_minRaw_val : ∑ p, minRaw p = 4451 / 100 := by
  norm_num [Fin.sum_univ_succ, minRaw]

lemma maj_entry_lb (p : Fin 12) : (1 / 6 : ℝ) ≤ maj p := by
  refine normalize_entry_lb majRaw majRaw_pos (fun q => ?_) p
  rw [sqNorm_majRaw_val]
  fin_cases q <;> norm_num [majRaw]

lemma minr_entry_lb (p : Fin 12) : (1 / 6 : ℝ) ≤ minr p := by
  refine normalize_entry_lb minRaw minRaw_pos (fun q => ?_) p
  rw [sqNorm_minRaw_val]
  fin_cases q <;> norm_num [minRaw]

lemma maj_sum_ub : ∑ p, maj p ≤ 4 := by
  refine normalize_sum_ub majRaw majRaw_pos ?_
  rw [sum_majRaw_val, sqNorm_majRaw_val]
  norm_num

lemma minr_sum_ub : ∑ p, minr p ≤ 4 := by
  refine normalize_sum_ub minRaw minRaw_pos ?_
  rw [sum_minRaw_val, sqNorm_minRaw_val]
  norm_num

end Harmoniq

namespace Harmoniq.TrainKey

open Harmoniq

/-! ## Bounds on the synthesized mix -/

lemma mixBase_lb (cls : Fin 24) (p : Fin 12) :
    (1 / 6 : ℝ) ≤ rot (if ((cls : ℕ) % 2 == 0) then maj else minr) (((cls : ℕ) / 2 : ℕ) : ℤ) p := by
  cases h : ((cls : ℕ) % 2 == 0) <;> simp only [h, if_true, if_false, Bool.false_eq_true]
  · exact minr_entry_lb _
  · exact maj_entry_lb _

lemma mixBase_sum_ub (cls : Fin 24) :
    ∑ p, rot (if ((cls : ℕ) % 2 == 0) then maj else minr) (((cls : ℕ) / 2 : ℕ) : ℤ) p ≤ 4 := by
  rw [sum_rot]
  cases h : ((cls : ℕ) % 2 == 0) <;> simp only [h, if_true, if_false, Bool.false_eq_true]
  · exact minr_sum_ub
  · exact maj_sum_ub

lemma synthMix_apply (cls : Fin 24) (d : SynthDraws) (p : Fin 12) :
    synthMix cls d p =
      rot (if ((cls : ℕ) % 2 == 0) then maj else minr) (((cls : ℕ) / 2 : ℕ) : ℤ) p * (d.u : ℝ)
      + (∑ i : Fin 3, if (i : ℕ) < d.nChords then
          (7 / 10) * ((chord_vec ((cls : ℕ) / 2) ((cls : ℕ) % 2 == 0) (d.chords i) p : ℚ) : ℝ)
          else 0)
      + (3 / 20) * roll (rot (if ((cls : ℕ) % 2 == 0) then maj else minr)
          (((cls : ℕ) / 2 : ℕ) : ℤ)) (shiftVal d.shiftIdx) p
      + (1 / 20) * (d.noise p : ℝ) := rfl

lemma synth_sample_apply (cls : Fin 24) (d : SynthDraws) (p : Fin 12) :
    synth_sample cls d p =
      max (synthMix cls d p) (1 / 1000000)
        / ∑ q, max (synthMix cls d q) (1 / 1000000) := rfl

lemma synthMix_entry_lb (cls : Fin 24) (d : SynthDraws) (hd : ValidDraws d) (p : Fin 12) :
    (2 / 15 : ℝ) ≤ synthMix cls d p := by
  obtain ⟨hu1, _hu2, _hn1, _hn2, _hcd, hnoise⟩ := hd
  have hu1' : (4 / 5 : ℝ) ≤ (d.u : ℝ) := by
    have h := ratCast_le_real hu1
    push_cast at h
    exact h
  rw [synthMix_apply]
  have hb := mixBase_lb cls p
  have h1 : (2 / 15 : ℝ) ≤
      rot (if ((cls : ℕ) % 2 == 0) then maj else minr) (((cls : ℕ) / 2 : ℕ) : ℤ) p * (d.u : ℝ) := by
    calc (2 / 15 : ℝ) = (1 / 6) * (4 / 5) := by norm_num
      _ ≤ _ := mul_le_mul hb hu1' (by norm_num) (le_trans (by norm_num) hb)
  have h2 : (0 : ℝ) ≤ ∑ i : Fin 3, if (i : ℕ) < d.nChords then
      (7 / 10 : ℝ) * ((chord_vec ((cls : ℕ) / 2) ((cls : ℕ) % 2 == 0) (d.chords i) p : ℚ) : ℝ)
      else 0 := by
    refine Finset.sum_nonneg (fun i _ => ?_)
    by_cases h : (i : ℕ) < d.nChords
    · rw [if_pos h]
      have hcv : (0 : ℝ) ≤ ((chord_vec ((cls : ℕ) / 2) ((cls : ℕ) % 2 == 0) (d.chords i) p : ℚ) : ℝ) := by
        exact_mod_cast chord_vec_nonneg _ _ _ _
      positivity
    · rw [if_neg h]
  have h3 : (0 : ℝ) ≤ (3 / 20 : ℝ) * roll (rot (if ((cls : ℕ) % 2 == 0) then maj else minr)
      (((cls : ℕ) / 2 : ℕ) : ℤ)) (shiftVal d.shiftIdx) p := by
    have hr : (1 / 6 : ℝ) ≤ roll (rot (if ((cls : ℕ) % 2 == 0) then maj else minr)
        (((cls : ℕ) / 2 : ℕ) : ℤ)) (shiftVal d.shiftIdx) p :=
      mixBase_lb cls (wrap12 ((p : ℤ) - shiftVal d.shiftIdx))
    linarith
  have h4 : (0 : ℝ) ≤ (1 / 20 : ℝ) * (d.noise p : ℝ) := by
    have hn : (0 : ℝ) ≤ (d.noise p : ℝ) := by exact_mod_cast (hnoise p).1
    linarith
  linarith

lemma synthMix_sum_ub (cls : Fin 24) (d : SynthDraws) (hd : ValidDraws d) :
    ∑ p, synthMix cls d p ≤ 15 := by
  obtain ⟨hu1, hu2, _hn1, _hn2, _hcd, hnoise⟩ := hd
  have hu1' : (4 / 5 : ℝ) ≤ (d.u : ℝ) := by
    have h := ratCast_le_real hu1
    push_cast at h
    exact h
  have hu2' : (d.u : ℝ) ≤ 6 / 5 := by
    have h := ratCast_le_real hu2
    push_cast at h
    exact h
  rw [Finset.sum_congr rfl (fun p _ => synthMix_apply cls d p)]
  rw [Finset.sum_add_distrib, Finset.sum_add_distrib, Finset.sum_add_distrib]
  have hS1 : ∑ p, rot (if ((cls : ℕ) % 2 == 0) then maj else minr)
      (((cls : ℕ) / 2 : ℕ) : ℤ) p * (d.u : ℝ) ≤ 24 / 5 := by
    rw [← Finset.sum_mul]
    calc (∑ p, rot (if ((cls : ℕ) % 2 == 0) then maj else minr)
          (((cls : ℕ) / 2 : ℕ) : ℤ) p) * (d.u : ℝ)
        ≤ 4 * (6 / 5) := by
          refine mul_le_mul (mixBase_sum_ub cls) hu2' (le_trans (by norm_num) hu1') (by norm_num)
      _ = 24 / 5 := by norm_num
  have hS2 : ∑ p, (∑ i : Fin 3, if (i : ℕ) < d.nChords then
      (7 / 10 : ℝ) * ((chord_vec ((cls : ℕ) / 2) ((cls : ℕ) % 2 == 0) (d.chords i) p : ℚ) : ℝ)
      else 0) ≤ 861 / 100 := by
    rw [Finset.sum_comm]
    have hinner : ∀ i : Fin 3, (∑ p : Fin 12, if (i : ℕ) < d.nChords then
        (7 / 10 : ℝ) * ((chord_vec ((cls : ℕ) / 2) ((cls : ℕ) % 2 == 0) (d.chords i) p : ℚ) : ℝ)
        else 0) ≤ 287 / 100 := by
      intro i
      by_cases h : (i : ℕ) < d.nChords
      · simp only [if_pos h]
        rw [← Finset.mul_sum]
        have hsum : (∑ p : Fin 12,
            ((chord_vec ((cls : ℕ) / 2) ((cls : ℕ) % 2 == 0) (d.chords i) p : ℚ) : ℝ)) ≤ 41 / 10 := by
          have hq := ratCast_le_real
            (chord_vec_sum_le ((cls : ℕ) / 2) ((cls : ℕ) % 2 == 0) (d.chords i))
          push_cast at hq
          exact hq
        have hsum_nn : (0 : ℝ) ≤ ∑ p : Fin 12,
            ((chord_vec ((cls : ℕ) / 2) ((cls : ℕ) % 2 == 0) (d.chords i) p : ℚ) : ℝ) := by
          refine Finset.sum_nonneg (fun p _ => ?_)
          exact_mod_cast chord_vec_nonneg _ _ _ _
        nlinarith
      · simp only [if_neg h]
        norm_num
    calc ∑ i : Fin 3, (∑ p : Fin 12, if (i : ℕ) < d.nChords then
          (7 / 10 : ℝ) * ((chord_vec ((cls : ℕ) / 2) ((cls : ℕ) % 2 == 0) (d.chords i) p : ℚ) : ℝ)
          else 0)
        ≤ ∑ _i : Fin 3, (287 / 100 : ℝ) := Finset.sum_le_sum (fun i _ => hinner i)
      _ = 861 / 100 := by
          simp [Finset.sum_const]
          norm_num
  have hS3 : ∑ p, (3 / 20 : ℝ) * roll (rot (if ((cls : ℕ) % 2 == 0) then maj else minr)
      (((cls : ℕ) / 2 : ℕ) : ℤ)) (shiftVal d.shiftIdx) p ≤ 3 / 5 := by
    rw [← Finset.mul_sum]
    have hroll : ∑ p, roll (rot (if ((cls : ℕ) % 2 == 0) then maj else minr)
        (((cls : ℕ) / 2 : ℕ) : ℤ)) (shiftVal d.shiftIdx) p ≤ 4 := by
      rw [sum_roll]
      exact mixBase_sum_ub cls
    nlinarith
  have hS4 : ∑ p, (1 / 20 : ℝ) * (d.noise p : ℝ) ≤ 3 / 5 := by
    calc ∑ p, (1 / 20 : ℝ) * (d.noise p : ℝ)
        ≤ ∑ _p : Fin 12, (1 / 20 : ℝ) := by
          refine Finset.sum_le_sum (fun p _ => ?_)
          have := (hnoise p).2
          have hlt : (d.noise p : ℝ) < 1 := by exact_mod_cast this
          linarith
      _ = 12 / 20 := by
          simp [Finset.sum_const]
          norm_num
      _ ≤ 3 / 5 := by norm_num
  linarith

/-! ## C5: synthesized samples are floored and sum to one -/

/-- Claim C5: for every key class and every random-source state within the
random source's guaranteed ranges, every entry of the synthesized chroma
vector is at least the floor `1e-6` and the entries sum to exactly 1. -/
theorem synth_sample_floor_and_unit_sum :
    ∀ (cls : Fin 24) (d : SynthDraws), ValidDraws d →
      (∀ p, (1 / 1000000 : ℝ) ≤ synth_sample cls d p) ∧
      (∑ p, synth_sample cls d p) = 1 := by
  intro cls d hd
  have hmix_lb := synthMix_entry_lb cls d hd
  have hmix_ub := synthMix_sum_ub cls d hd
  have hclip : ∀ p, max (synthMix cls d p) (1 / 1000000 : ℝ) = synthMix cls d p :=
    fun p => max_eq_left (le_trans (by norm_num) (hmix_lb p))
  have hSsame : (∑ q, max (synthMix cls d q) (1 / 1000000 : ℝ)) = ∑ q, synthMix cls d q :=
    Finset.sum_congr rfl (fun q _ => hclip q)
  have hS_lb : (8 / 5 : ℝ) ≤ ∑ q, synthMix cls d q := by
    calc (8 / 5 : ℝ) = ∑ _q : Fin 12, (2 / 15 : ℝ) := by
          simp [Finset.sum_const]
          norm_num
      _ ≤ ∑ q, synthMix cls d q := Finset.sum_le_sum (fun q _ => hmix_lb q)
  have hS_pos : (0 : ℝ) < ∑ q, synthMix cls d q := lt_of_lt_of_le (by norm_num) hS_lb
  constructor
  · intro p
    rw [synth_sample_apply, hclip p, hSsame]
    have hstep : (2 / 15 : ℝ) / 15 ≤ synthMix cls d p / (∑ q, synthMix cls d q) := by
      gcongr <;> first
        | exact hmix_ub
        | linarith [hmix_lb p]
    have : (1 / 1000000 : ℝ) ≤ (2 / 15 : ℝ) / 15 := by norm_num
    linarith
  · rw [Finset.sum_congr rfl (fun p _ => by rw [synth_sample_apply, hclip p, hSsame])]
    rw [← Finset.sum_div]
    exact div_self hS_pos.ne'

/-- Witness for C5 at key class 0 and a concrete random trace. -/
theorem synth_sample_floor_and_unit_sum_witness :
    ValidDraws ⟨1, 1, fun _ => ⟨0, 0, 0⟩, 0, fun _ => 0⟩ ∧
      ((∀ p, (1 / 1000000 : ℝ) ≤
          synth_sample ⟨0, by norm_num⟩ ⟨1, 1, fun _ => ⟨0, 0, 0⟩, 0, fun _ => 0⟩ p) ∧
        (∑ p, synth_sample ⟨0, by norm_num⟩ ⟨1, 1, fun _ => ⟨0, 0, 0⟩, 0, fun _ => 0⟩ p) = 1) :=
  ⟨by norm_num [ValidDraws],
    synth_sample_floor_and_unit_sum ⟨0, by norm_num⟩ _ (by norm_num [ValidDraws])⟩

/-! ## C10: the renormalization never divides by zero -/

/-- Claim C10: after clipping every entry to at least `1e-6`, the sum of the
12 entries is at least `12e-6 > 0`, so the final division is
well-defined and every entry of the returned vector is strictly
positive (and, over the reals, finite). -/
theorem renormalization_never_divides_by_zero :
    ∀ (cls : Fin 24) (d : SynthDraws),
      ((12 / 1000000 : ℝ) ≤ ∑ q, max (synthMix cls d q) (1 / 1000000)) ∧
      (∑ q, max (synthMix cls d q) (1 / 1000000)) ≠ 0 ∧
      (∀ p, 0 < synth_sample cls d p) := by
  intro cls d
  have h1 : ∀ q : Fin 12, (1 / 1000000 : ℝ) ≤ max (synthMix cls d q) (1 / 1000000) :=
    fun q => le_max_right _ _
  have hsum : (12 / 1000000 : ℝ) ≤ ∑ q, max (synthMix cls d q) (1 / 1000000) := by
    calc (12 / 1000000 : ℝ) = ∑ _q : Fin 12, (1 / 1000000 : ℝ) := by
          simp [Finset.sum_const]
          norm_num
      _ ≤ ∑ q, max (synthMix cls d q) (1 / 1000000) := Finset.sum_le_sum (fun q _ => h1 q)
  have hS_pos : (0 : ℝ) < ∑ q, max (synthMix cls d q) (1 / 1000000) :=
    lt_of_lt_of_le (by norm_num) hsum
  refine ⟨hsum, hS_pos.ne', fun p => ?_⟩
  rw [synth_sample_apply]
  exact div_pos (lt_of_lt_of_le (by norm_num) (h1 p)) hS_pos

/-! ## C6: dataset size, class balance, shuffle and split -/

lemma countP_flatMap {γ β : Type*} (l : List γ) (f : γ → List β) (q : β → Bool) :
    (l.flatMap f).countP q = (l.map (fun a => (f a).countP q)).sum := by
  induction l with
  | nil => rfl
  | cons a t ih => simp [List.flatMap_cons, List.countP_append, ih]

lemma make_dataset_list_length (n : ℕ) (ds : ℕ → ℕ → SynthDraws) :
    (make_dataset_list n ds).length = 24 * n := by
  unfold make_dataset_list
  rw [List.length_flatMap]
  have h1 : (List.map (List.length ∘ fun c : Fin 24 =>
      (List.range n).map fun j => (synth_sample c (ds (c : ℕ) j), (c : ℕ)))
        (List.finRange 24))
      = List.map (fun _ : Fin 24 => n) (List.finRange 24) := by
    refine List.map_congr_left (fun c _ => ?_)
    simp
  rw [h1, List.map_const', List.sum_replicate, smul_eq_mul, List.length_finRange]

lemma make_dataset_list_countP (n : ℕ) (ds : ℕ → ℕ → SynthDraws) (c : Fin 24) :
    (make_dataset_list n ds).countP (fun s => s.2 == (c : ℕ)) = n := by
  unfold make_dataset_list
  rw [countP_flatMap]
  have hblock : ∀ k : Fin 24,
      (((List.range n).map fun j => (synth_sample k (ds (k : ℕ) j), (k : ℕ))).countP
        (fun s => s.2 == (c : ℕ))) = if k = c then n else 0 := by
    intro k
    rw [List.countP_map]
    by_cases hk : k = c
    · subst hk
      have he : ((fun s : (Fin 12 → ℝ) × ℕ => s.2 == (k : ℕ)) ∘
          fun j => (synth_sample k (ds (k : ℕ) j), (k : ℕ))) = fun _ => true := by
        funext j
        simp
      rw [he, if_pos rfl, List.countP_true, List.length_range]
    · have he : ((fun s : (Fin 12 → ℝ) × ℕ => s.2 == (c : ℕ)) ∘
          fun j => (synth_sample k (ds (k : ℕ) j), (k : ℕ))) = fun _ => false := by
        funext j
        show ((k : ℕ) == (c : ℕ)) = false
        rw [beq_eq_false_iff_ne]
        exact fun h => hk (Fin.ext h)
      rw [he, if_neg hk, List.countP_false]
      rfl
  rw [List.map_congr_left (fun k _ => hblock k)]
  rw [← Fin.sum_univ_def, Finset.sum_ite_eq' Finset.univ c (fun _ => n)]
  simp

lemma permuteList_length {β : Type*} (l : List β) (σ : Equiv.Perm (Fin l.length)) :
    (permuteList l σ).length = l.length := by
  simp [permuteList]

lemma permuteList_perm {β : Type*} (l : List β) (σ : Equiv.Perm (Fin l.length)) :
    (permuteList l σ).Perm l := by
  have h1 : permuteList l σ = (List.map σ (List.finRange l.length)).map l.get := by
    rw [List.map_map]
    rfl
  have h2 : (List.map σ (List.finRange l.length)).Perm (List.finRange l.length) := by
    apply List.perm_of_nodup_nodup_toFinset_eq
    · exact List.Nodup.map σ.injective (List.nodup_finRange _)
    · exact List.nodup_finRange _
    · have ha : (List.map σ (List.finRange l.length)).toFinset = Finset.univ :=
        Finset.eq_univ_iff_forall.mpr (fun x => by
          simp only [List.mem_toFinset, List.mem_map]
          exact ⟨σ.symm x, List.mem_finRange _, σ.apply_symm_apply x⟩)
      have hb : (List.finRange l.length).toFinset = Finset.univ :=
        Finset.eq_univ_iff_forall.mpr (fun x => by
          simp [List.mem_toFinset, List.mem_finRange])
      rw [ha, hb]
  have h3 : ((List.map σ (List.finRange l.length)).map l.get).Perm
      ((List.finRange l.length).map l.get) := h2.map l.get
  rw [List.finRange_map_get l] at h3
  rw [h1]
  exact h3

/-- Claim C6: for every samples-per-class `n`, the dataset build produces
exactly `24 n` labeled samples, exactly `n` per key class before
shuffling; the train partition holds `⌊0.9 · 24n⌋` samples and the
validation partition the rest; the two partitions concatenate to the
shuffled list, which is a permutation of the generated samples. -/
theorem dataset_build_counts :
    ∀ (n : ℕ) (ds : ℕ → ℕ → SynthDraws)
      (σ : Equiv.Perm (Fin (make_dataset_list n ds).length)),
      (make_dataset_list n ds).length = 24 * n ∧
      (∀ c : Fin 24, (make_dataset_list n ds).countP (fun s => s.2 == (c : ℕ)) = n) ∧
      (trainVal n ds σ).1.length = 9 * (24 * n) / 10 ∧
      (trainVal n ds σ).2.length = 24 * n - 9 * (24 * n) / 10 ∧
      (trainVal n ds σ).1 ++ (trainVal n ds σ).2 = permuteList (make_dataset_list n ds) σ ∧
      ((trainVal n ds σ).1 ++ (trainVal n ds σ).2).Perm (make_dataset_list n ds) := by
  intro n ds σ
  have hlen := make_dataset_list_length n ds
  have hplen : (permuteList (make_dataset_list n ds) σ).length = 24 * n := by
    rw [permuteList_length, hlen]
  have h1 : (trainVal n ds σ).1 =
      (permuteList (make_dataset_list n ds) σ).take
        (9 * (permuteList (make_dataset_list n ds) σ).length / 10) := rfl
  have h2 : (trainVal n ds σ).2 =
      (permuteList (make_dataset_list n ds) σ).drop
        (9 * (permuteList (make_dataset_list n ds) σ).length / 10) := rfl
  have happend : (trainVal n ds σ).1 ++ (trainVal n ds σ).2 =
      permuteList (make_dataset_list n ds) σ := by
    rw [h1, h2]
    exact List.take_append_drop _ _
  refine ⟨hlen, fun c => make_dataset_list_countP n ds c, ?_, ?_, happend, ?_⟩
  · rw [h1, List.length_take, hplen]
    omega
  · rw [h2, List.length_drop, hplen]
  · rw [happend]
    exact permuteList_perm _ σ
